import Mathlib

set_option maxHeartbeats 1000000
set_option maxRecDepth 4000
set_option linter.unusedSectionVars false

/-! Verification of the crossword constraint-satisfaction engine
(`generate.py`): node consistency, the AC-3 propagation loop, and the
backtracking search driver.  Words are lists of characters, domains are
per-slot candidate lists, and the search state is threaded explicitly. -/

/-- A word is a list of characters. -/
abbrev Word : Type := List Char

/-- Character of `w` at index `i` (Python `w[i]`, for in-range `i`). -/
def charAt (w : Word) (i : Nat) : Char := w.getD i ' '

/-- Modelled from the spec: the Puzzle Model (class `Crossword` of
`crossword.py`, which is not among the given sources).  It exposes the slots
(`vars`), each slot's `length`, the vocabulary `words`, and the
`overlaps` map giving, for each pair of crossing slots, the pair of in-word
indices that must carry the same letter; `overlaps` yields `none` for
non-crossing pairs.  The well-formedness fields record what the spec states:
slots are distinct; overlaps relate distinct slots and are symmetric; overlap
indices point into the respective slots' words. -/
structure Crossword (V : Type) where
  vars : List V
  length : V → Nat
  words : List Word
  overlaps : V → V → Option (Nat × Nat)
  vars_nodup : vars.Nodup
  overlaps_mem : ∀ x y i j, overlaps x y = some (i, j) →
    x ∈ vars ∧ y ∈ vars ∧ x ≠ y
  overlaps_symm : ∀ x y i j, overlaps x y = some (i, j) →
    overlaps y x = some (j, i)
  overlaps_lt : ∀ x y i j, overlaps x y = some (i, j) →
    i < length x ∧ j < length y

variable {V : Type} [DecidableEq V]

/-- Initial domains: each slot starts with the full vocabulary
(`CrosswordCreator.__init__`). -/
def initialDomains (c : Crossword V) : V → List Word := fun _ => c.words

/-- Modelled from the spec: `Crossword.neighbors` — the slots that cross the
given slot, i.e. the other slots for which an overlap is present. -/
def neighbors (c : Crossword V) (x : V) : List V :=
  c.vars.filter (fun z => decide (z ≠ x) && (c.overlaps x z).isSome)

/-- `enforce_node_consistency`: drop from each slot's domain every word whose
length differs from the slot's length. -/
def enforceNodeConsistency (c : Crossword V) (d : V → List Word) : V → List Word :=
  fun v => if v ∈ c.vars then (d v).filter (fun w => w.length == c.length v) else d v

/-- `revise x y`: remove from `x`'s domain every word that agrees with no word
of `y`'s domain at the overlap; return whether `x`'s domain changed, together
with the updated domains.  When there is no overlap this is a no-op reporting
no change. -/
def revise (c : Crossword V) (d : V → List Word) (x y : V) : Bool × (V → List Word) :=
  match c.overlaps x y with
  | none => (false, d)
  | some (i, j) =>
    if ((d x).filter (fun wx => !((d y).any (fun wy => charAt wx i == charAt wy j)))).isEmpty then
      (false, d)
    else
      (true, fun v => if v = x then
        (d x).filter (fun wx => (d y).any (fun wy => charAt wx i == charAt wy j)) else d v)

/-- Total number of candidate words over all slots; it shrinks at every
queue step of AC-3 that reports a revision. -/
def totalSize (c : Crossword V) (d : V → List Word) : Nat :=
  (c.vars.map (fun v => (d v).length)).sum

/-- The fuelled AC-3 worklist loop: dequeue an arc, revise, fail if the
revised domain emptied, otherwise re-enqueue the arcs into the revised slot.
Fuel `0` is never reached when the fuel exceeds
`queue length + total domain size * number of slots`. -/
def ac3F (c : Crossword V) : Nat → List (V × V) → (V → List Word) → Bool × (V → List Word)
  | 0, _, d => (false, d)
  | _ + 1, [], d => (true, d)
  | fuel + 1, (x, y) :: rest, d =>
    let r := revise c d x y
    if r.1 then
      if (r.2 x).isEmpty then (false, r.2)
      else ac3F c fuel
        (rest ++ ((neighbors c x).filter (fun z => decide (z ≠ y))).map (fun z => (z, x))) r.2
    else ac3F c fuel rest d

/-- The default seeding of the AC-3 queue: all arcs `(x, y)` with `y` a
neighbor of `x`. -/
def allArcs (c : Crossword V) : List (V × V) :=
  c.vars.flatMap (fun x => (neighbors c x).map (fun y => (x, y)))

/-- `ac3` with its default seeding (`arcs=None`).  The fuel provably suffices
for the worklist to drain, so this is exactly the Python `while` loop. -/
def ac3 (c : Crossword V) (d : V → List Word) : Bool × (V → List Word) :=
  ac3F c ((allArcs c).length + totalSize c d * c.vars.length + 1) (allArcs c) d

/-- An assignment is an insertion-ordered list of (slot, word) pairs, the
shape of the Python `dict`. -/
abbrev Assignment (V : Type) : Type := List (V × Word)

/-- Dictionary lookup (`assignment[v]` / `assignment.get(v)`). -/
def alookup : Assignment V → V → Option Word
  | [], _ => none
  | (k, w) :: rest, v => if v = k then some w else alookup rest v

/-- Key-membership test (`v in assignment`). -/
def hasKey (a : Assignment V) (v : V) : Bool := (alookup a v).isSome

/-- `assignment_complete`: the assignment has as many entries as there are
slots. -/
def assignmentComplete (c : Crossword V) (a : Assignment V) : Bool :=
  a.length == c.vars.length

/-- The neighbor checks that `consistent` performs for one entry: every
assigned neighbor's word agrees at the overlap. -/
def nbChecks (c : Crossword V) (a : Assignment V) (v : V) (w : Word) : Bool :=
  (neighbors c v).all (fun nb =>
    match alookup a nb with
    | none => true
    | some wn =>
      match c.overlaps v nb with
      | some (i, j) => charAt w i == charAt wn j
      | none => true)

/-- The entry-by-entry loop of `consistent`, carrying the set of words already
seen (for the distinctness check). -/
def consChecks (c : Crossword V) (a : Assignment V) : List (V × Word) → List Word → Bool
  | [], _ => true
  | (v, w) :: rest, seen =>
    if w ∈ seen then false
    else if w.length != c.length v then false
    else if nbChecks c a v w then consChecks c a rest (w :: seen)
    else false

/-- `consistent`: words pairwise distinct, every word of the slot's length,
and all overlaps between assigned slots agree. -/
def consistentB (c : Crossword V) (a : Assignment V) : Bool :=
  consChecks c a a []

/-- `count_conflicts` inside `order_domain_values`: how many words of
unassigned neighbors' domains conflict with `w` at the overlap. -/
def countConflicts (c : Crossword V) (d : V → List Word) (a : Assignment V) (var : V)
    (w : Word) : Nat :=
  ((neighbors c var).map (fun nb =>
    if hasKey a nb then 0
    else
      match c.overlaps var nb with
      | some (i, j) => (d nb).countP (fun wn => !(charAt w i == charAt wn j))
      | none => 0)).sum

/-- Stable insertion of a word into a key-sorted list (ties keep the earlier
word first, as Python's stable `sorted` does). -/
def insertByKey (key : Word → Nat) (w : Word) : List Word → List Word
  | [] => [w]
  | u :: rest => if key w ≤ key u then w :: u :: rest else u :: insertByKey key w rest

/-- Stable sort, ascending by key — the list Python's stable
`sorted(..., key=...)` produces. -/
def sortByKey (key : Word → Nat) : List Word → List Word
  | [] => []
  | w :: rest => insertByKey key w (sortByKey key rest)

/-- `order_domain_values`: the domain of `var` sorted by the
least-constraining-value count. -/
def orderDomainValues (c : Crossword V) (d : V → List Word) (a : Assignment V)
    (var : V) : List Word :=
  sortByKey (countConflicts c d a var) (d var)

/-- The strict comparison on Python's sort key `(len(domain), -degree)`. -/
def mrvLt (c : Crossword V) (d : V → List Word) (v u : V) : Bool :=
  (d v).length < (d u).length ||
    ((d v).length == (d u).length && (neighbors c u).length < (neighbors c v).length)

/-- Python's `min(..., key=...)`: the first element attaining the minimum. -/
def minBy (lt : V → V → Bool) : V → List V → V
  | best, [] => best
  | best, v :: rest => minBy lt (if lt v best then v else best) rest

/-- `select_unassigned_variable`: minimum remaining values, ties broken by
degree; `none` only when every slot is assigned. -/
def selectUnassigned (c : Crossword V) (d : V → List Word) (a : Assignment V) : Option V :=
  match c.vars.filter (fun v => !(hasKey a v)) with
  | [] => none
  | u :: rest => some (minBy (mrvLt c d) u rest)

/-- Python truthiness of `backtrack`'s result (`if result:`): `None` and the
empty dict are falsy. -/
def pyTruthy : Option (Assignment V) → Bool
  | none => false
  | some a => !a.isEmpty

/-- The `for value in self.order_domain_values(...)` loop of `backtrack`:
try each candidate in order; on any failure restore the entry domains and
move on.  The recursive call is abstracted as `bt`. -/
def tryVals (c : Crossword V)
    (bt : (V → List Word) → Assignment V → Option (Assignment V) × (V → List Word))
    (d : V → List Word) (a : Assignment V) (var : V) :
    List Word → Option (Assignment V) × (V → List Word)
  | [] => (none, d)
  | w :: ws =>
    if consistentB c (a ++ [(var, w)]) then
      let r := ac3 c d
      if r.1 then
        let res := bt r.2 (a ++ [(var, w)])
        if pyTruthy res.1 then res
        else tryVals c bt d a var ws
      else tryVals c bt d a var ws
    else tryVals c bt d a var ws

/-- `backtrack`, with an explicit recursion-depth fuel; the depth never
exceeds the number of unassigned slots plus one, so `solve`'s fuel below is
never exhausted. -/
def backtrackF (c : Crossword V) : Nat → (V → List Word) → Assignment V →
    Option (Assignment V) × (V → List Word)
  | 0, d, _ => (none, d)
  | fuel + 1, d, a =>
    if assignmentComplete c a then (some a, d)
    else
      match selectUnassigned c d a with
      | none => (none, d)
      | some var =>
        tryVals c (fun d' a' => backtrackF c fuel d' a') d a var
          (orderDomainValues c d a var)

/-- `solve`: node consistency, arc consistency (result ignored, as in the
source), then backtracking from the empty assignment. -/
def solve (c : Crossword V) : Option (Assignment V) :=
  (backtrackF c (c.vars.length + 1)
    ((ac3 c (enforceNodeConsistency c (initialDomains c))).2) []).1

/-- Arc-consistency of `x` towards `y` at overlap `(i, j)`: every word of
`x`'s domain has a compatible word in `y`'s domain. -/
def arcConsAt (d : V → List Word) (x y : V) (i j : Nat) : Prop :=
  ∀ w ∈ d x, ∃ u ∈ d y, charAt w i = charAt u j

/-- Every word of every slot's domain has exactly the slot's length. -/
def lenOK (c : Crossword V) (d : V → List Word) : Prop :=
  ∀ v ∈ c.vars, ∀ w ∈ d v, w.length = c.length v

/-- Pointwise containment of candidate lists ("the domain only shrinks"). -/
def subD (l₁ l₂ : List Word) : Prop := ∀ w ∈ l₁, w ∈ l₂

/-- A constraint-satisfying complete assignment: vocabulary words of the
right lengths, pairwise distinct, agreeing at every overlap. -/
def isSolution (c : Crossword V) (S : V → Word) : Prop :=
  (∀ v ∈ c.vars, S v ∈ c.words) ∧
  (∀ v ∈ c.vars, (S v).length = c.length v) ∧
  (∀ x ∈ c.vars, ∀ y ∈ c.vars, x ≠ y → S x ≠ S y) ∧
  (∀ x y i j, c.overlaps x y = some (i, j) → charAt (S x) i = charAt (S y) j)

/-- The AC-3 worklist invariant: every overlap constraint is either still
queued or already satisfied by the current domains. -/
def ac3Inv (c : Crossword V) (q : List (V × V)) (d : V → List Word) : Prop :=
  ∀ x y i j, c.overlaps x y = some (i, j) → (x, y) ∈ q ∨ arcConsAt d x y i j

/-- The assignment invariant maintained by `backtrack`: entry keys are
pairwise distinct slots of the puzzle. -/
def goodKeys (c : Crossword V) (a : Assignment V) : Prop :=
  (a.map Prod.fst).Nodup ∧ ∀ e ∈ a, (e : V × Word).1 ∈ c.vars

/-- What the spec requires of a returned assignment: every slot assigned, all
words of the right length, pairwise distinct, and all overlaps agreeing. -/
def satisfies (c : Crossword V) (r : Assignment V) : Prop :=
  (∀ v ∈ c.vars, ∃ w, alookup r v = some w) ∧
  (∀ v w, v ∈ c.vars → alookup r v = some w → (w : Word).length = c.length v) ∧
  (∀ x y wx wy, x ∈ c.vars → y ∈ c.vars → x ≠ y →
    alookup r x = some wx → alookup r y = some wy → wx ≠ wy) ∧
  (∀ x y i j wx wy, c.overlaps x y = some (i, j) →
    alookup r x = some wx → alookup r y = some wy → charAt wx i = charAt wy j)

/-! ### Concrete puzzles used to witness the theorems -/

/-- A single slot with no crossings: the smallest puzzle exercising the
propagation loop on an empty domain. -/
def cwLonely : Crossword (Fin 1) where
  vars := [0]
  length := fun _ => 3
  words := []
  overlaps := fun _ _ => none
  vars_nodup := by decide
  overlaps_mem := fun _ _ _ _ h => Option.noConfusion h
  overlaps_symm := fun _ _ _ _ h => Option.noConfusion h
  overlaps_lt := fun _ _ _ _ h => Option.noConfusion h

/-- The spec's concrete scenario: an ACROSS slot crossing a DOWN slot at the
middle letter, vocabulary cat / car / dog. -/
def cwCross : Crossword (Fin 2) where
  vars := [0, 1]
  length := fun _ => 3
  words := [['c','a','t'], ['c','a','r'], ['d','o','g']]
  overlaps := fun x y =>
    match x, y with
    | 0, 1 => some (1, 1)
    | 1, 0 => some (1, 1)
    | _, _ => none
  vars_nodup := by decide
  overlaps_mem := by
    intro x y i j h
    fin_cases x <;> fin_cases y <;>
      first
      | exact Option.noConfusion h
      | (injection h with h2; injection h2 with hi hj; subst hi; subst hj; decide)
  overlaps_symm := by
    intro x y i j h
    fin_cases x <;> fin_cases y <;>
      first
      | exact Option.noConfusion h
      | (injection h with h2; injection h2 with hi hj; subst hi; subst hj; rfl)
  overlaps_lt := by
    intro x y i j h
    fin_cases x <;> fin_cases y <;>
      first
      | exact Option.noConfusion h
      | (injection h with h2; injection h2 with hi hj; subst hi; subst hj; decide)

/-- A single slot of length 3 with a vocabulary holding no word of length 3. -/
def cwBad : Crossword (Fin 1) where
  vars := [0]
  length := fun _ => 3
  words := [['a','b']]
  overlaps := fun _ _ => none
  vars_nodup := by decide
  overlaps_mem := fun _ _ _ _ h => Option.noConfusion h
  overlaps_symm := fun _ _ _ _ h => Option.noConfusion h
  overlaps_lt := fun _ _ _ _ h => Option.noConfusion h

instance (c : Crossword V) (d : V → List Word) : Decidable (lenOK c d) := by
  unfold lenOK
  infer_instance

/-! ### Basic helper lemmas -/

theorem subD_refl (l : List Word) : subD l l := fun _ hw => hw

theorem subD_trans {l₁ l₂ l₃ : List Word} (h₁ : subD l₁ l₂) (h₂ : subD l₂ l₃) :
    subD l₁ l₃ := fun w hw => h₂ w (h₁ w hw)

theorem subD_filter (p : Word → Bool) (l : List Word) : subD (l.filter p) l :=
  fun _ hw => (List.mem_filter.mp hw).1

theorem length_filter_lt {p : Word → Bool} {l : List Word} {w : Word}
    (hw : w ∈ l) (hp : p w = false) : (l.filter p).length < l.length := by
  induction l with
  | nil => cases hw
  | cons b rest ih =>
    rcases List.mem_cons.mp hw with hb | hb
    · subst hb
      simp only [List.filter_cons, hp]
      exact Nat.lt_succ_of_le (List.length_filter_le p rest)
    · by_cases hpb : p b = true
      · simpa [List.filter_cons, hpb] using Nat.succ_lt_succ (ih hb)
      · rw [List.filter_cons, if_neg (by simp [hpb])]
        exact Nat.lt_succ_of_lt (ih hb)

theorem sum_map_lt {x : V} (f g : V → Nat) :
    ∀ l : List V, l.Nodup → x ∈ l → f x < g x → (∀ v, v ≠ x → f v = g v) →
      (l.map f).sum < (l.map g).sum := by
  intro l
  induction l with
  | nil => intro _ hx; cases hx
  | cons v rest ih =>
    intro hnd hx hfg hother
    rcases List.mem_cons.mp hx with hv | hv
    · subst hv
      have hrest : (rest.map f).sum = (rest.map g).sum := by
        have : rest.map f = rest.map g := by
          apply List.map_congr_left
          intro u hu
          exact hother u (fun hux => (List.nodup_cons.mp hnd).1 (hux ▸ hu))
        rw [this]
      simp only [List.map_cons, List.sum_cons, hrest]
      exact Nat.add_lt_add_right hfg _
    · have hvx : v ≠ x := fun hvx => (List.nodup_cons.mp hnd).1 (hvx ▸ hv)
      simp only [List.map_cons, List.sum_cons, hother v hvx]
      exact Nat.add_lt_add_left (ih (List.nodup_cons.mp hnd).2 hv hfg hother) _

theorem alookup_mem {a : Assignment V} {v : V} {w : Word}
    (h : alookup a v = some w) : (v, w) ∈ a := by
  induction a with
  | nil => cases h
  | cons e rest ih =>
    obtain ⟨k, u⟩ := e
    by_cases hv : v = k
    · subst hv
      simp [alookup] at h
      simp [h]
    · simp [alookup, hv] at h
      exact List.mem_cons_of_mem _ (ih h)

theorem alookup_isSome_iff {a : Assignment V} {v : V} :
    (alookup a v).isSome = true ↔ v ∈ a.map Prod.fst := by
  induction a with
  | nil => simp [alookup]
  | cons e rest ih =>
    obtain ⟨k, u⟩ := e
    by_cases hv : v = k
    · subst hv; simp [alookup]
    · simp [alookup, hv, ih]

theorem hasKey_false_iff {a : Assignment V} {v : V} :
    hasKey a v = false ↔ v ∉ a.map Prod.fst := by
  rw [hasKey, ← alookup_isSome_iff]
  cases alookup a v <;> simp

theorem neighbors_mem_iff {c : Crossword V} {x z : V} :
    z ∈ neighbors c x ↔ z ∈ c.vars ∧ z ≠ x ∧ (c.overlaps x z).isSome = true := by
  simp [neighbors, List.mem_filter, and_assoc]

/-! ### Lemmas about `revise` -/

theorem revise_of_none {c : Crossword V} {d : V → List Word} {x y : V}
    (h : c.overlaps x y = none) : revise c d x y = (false, d) := by
  simp [revise, h]

theorem revise_snd_ne {c : Crossword V} (d : V → List Word) (x y : V)
    {z : V} (hz : z ≠ x) : (revise c d x y).2 z = d z := by
  unfold revise
  cases h : c.overlaps x y with
  | none => rfl
  | some o =>
    obtain ⟨i, j⟩ := o
    by_cases he :
        ((d x).filter (fun wx => !((d y).any (fun wy => charAt wx i == charAt wy j)))).isEmpty
    · simp [he]
    · simp [he, hz]

theorem revise_snd_x {c : Crossword V} {d : V → List Word} {x y : V} {i j : Nat}
    (h : c.overlaps x y = some (i, j)) :
    (revise c d x y).2 x =
      (d x).filter (fun wx => (d y).any (fun wy => charAt wx i == charAt wy j)) := by
  unfold revise
  rw [h]
  by_cases he :
      ((d x).filter (fun wx => !((d y).any (fun wy => charAt wx i == charAt wy j)))).isEmpty
  · have hall : ∀ wx ∈ d x, (d y).any (fun wy => charAt wx i == charAt wy j) = true := by
      intro wx hwx
      have := List.filter_eq_nil_iff.mp (List.isEmpty_iff.mp he) wx hwx
      simpa using this
    simp only [he, if_pos]
    exact (List.filter_eq_self.mpr hall).symm
  · simp [he]

theorem revise_fst_false_eq {c : Crossword V} {d : V → List Word} {x y : V}
    (h : (revise c d x y).1 = false) : revise c d x y = (false, d) := by
  unfold revise at *
  cases ho : c.overlaps x y with
  | none => rfl
  | some o =>
    obtain ⟨i, j⟩ := o
    rw [ho] at h
    by_cases he :
        ((d x).filter (fun wx => !((d y).any (fun wy => charAt wx i == charAt wy j)))).isEmpty
    · simp [he]
    · simp [he] at h

theorem revise_fst_true_of_not_empty {c : Crossword V} {d : V → List Word} {x y : V}
    {i j : Nat} (h : c.overlaps x y = some (i, j))
    (hne : ((d x).filter
      (fun wx => !((d y).any (fun wy => charAt wx i == charAt wy j)))).isEmpty = false) :
    (revise c d x y).1 = true := by
  simp [revise, h, hne]

theorem revise_true_overlap {c : Crossword V} {d : V → List Word} {x y : V}
    (h : (revise c d x y).1 = true) : ∃ i j, c.overlaps x y = some (i, j) := by
  by_cases ho : (c.overlaps x y).isSome = true
  · obtain ⟨⟨i, j⟩, hij⟩ := Option.isSome_iff_exists.mp ho
    exact ⟨i, j, hij⟩
  · rw [revise_of_none (Option.not_isSome_iff_eq_none.mp (by simpa using ho))] at h
    cases h

theorem revise_false_arcCons {c : Crossword V} {d : V → List Word} {x y : V} {i j : Nat}
    (ho : c.overlaps x y = some (i, j)) (h : (revise c d x y).1 = false) :
    arcConsAt d x y i j := by
  unfold revise at h
  rw [ho] at h
  by_cases he :
      ((d x).filter (fun wx => !((d y).any (fun wy => charAt wx i == charAt wy j)))).isEmpty
  · intro w hw
    have := List.filter_eq_nil_iff.mp (List.isEmpty_iff.mp he) w hw
    simp only [Bool.not_eq_true'] at this
    simp only [Bool.not_eq_false] at this
    obtain ⟨u, hu, hcu⟩ := List.any_eq_true.mp this
    exact ⟨u, hu, by simpa using hcu⟩
  · simp [he] at h

theorem revise_true_length {c : Crossword V} {d : V → List Word} {x y : V}
    (h : (revise c d x y).1 = true) :
    ((revise c d x y).2 x).length < (d x).length := by
  obtain ⟨i, j, ho⟩ := revise_true_overlap h
  unfold revise at h
  rw [ho] at h
  by_cases he :
      ((d x).filter (fun wx => !((d y).any (fun wy => charAt wx i == charAt wy j)))).isEmpty
  · simp [he] at h
  · rw [revise_snd_x ho]
    have hne : ¬((d x).filter
        (fun wx => !((d y).any (fun wy => charAt wx i == charAt wy j))) = []) := by
      simpa [List.isEmpty_iff] using he
    obtain ⟨w, hw⟩ := List.exists_mem_of_ne_nil _ hne
    have hmem := List.mem_filter.mp hw
    exact length_filter_lt hmem.1 (by simpa using hmem.2)

theorem revise_sub {c : Crossword V} (d : V → List Word) (x y v : V) :
    subD ((revise c d x y).2 v) (d v) := by
  by_cases hv : v = x
  · rw [hv]
    cases ho : c.overlaps x y with
    | none => rw [revise_of_none ho]; exact subD_refl _
    | some o =>
      obtain ⟨i, j⟩ := o
      rw [revise_snd_x ho]
      exact subD_filter _ _
  · rw [revise_snd_ne d x y hv]
    exact subD_refl _

/-! ### Lemmas about the AC-3 loop -/

theorem ac3F_zero (c : Crossword V) (q : List (V × V)) (d : V → List Word) :
    ac3F c 0 q d = (false, d) := rfl

theorem ac3F_nil (c : Crossword V) (fuel : Nat) (d : V → List Word) :
    ac3F c (fuel + 1) [] d = (true, d) := rfl

theorem ac3F_cons (c : Crossword V) (fuel : Nat) (x y : V) (rest : List (V × V))
    (d : V → List Word) :
    ac3F c (fuel + 1) ((x, y) :: rest) d =
      if (revise c d x y).1 then
        if ((revise c d x y).2 x).isEmpty then (false, (revise c d x y).2)
        else ac3F c fuel
          (rest ++ ((neighbors c x).filter (fun z => decide (z ≠ y))).map (fun z => (z, x)))
          (revise c d x y).2
      else ac3F c fuel rest d := rfl

theorem ac3F_preserves (c : Crossword V) (P : (V → List Word) → Prop)
    (hP : ∀ d x y, P d → P ((revise c d x y).2)) :
    ∀ fuel q d, P d → P ((ac3F c fuel q d).2) := by
  intro fuel
  induction fuel with
  | zero => intro q d h; exact h
  | succ fuel ih =>
    intro q d h
    cases q with
    | nil => exact h
    | cons arc rest =>
      obtain ⟨x, y⟩ := arc
      rw [ac3F_cons]
      by_cases hr : (revise c d x y).1 = true
      · rw [if_pos hr]
        by_cases he : ((revise c d x y).2 x).isEmpty = true
        · rw [if_pos he]; exact hP d x y h
        · rw [if_neg he]
          exact ih _ _ (hP d x y h)
      · rw [if_neg hr]
        exact ih _ _ h

theorem ac3F_sub (c : Crossword V) (fuel : Nat) (q : List (V × V)) (d : V → List Word) :
    ∀ v, subD ((ac3F c fuel q d).2 v) (d v) :=
  ac3F_preserves c (fun e => ∀ v, subD (e v) (d v))
    (fun e x y he v => subD_trans (revise_sub e x y v) (he v)) fuel q d
    (fun _ => subD_refl _)

theorem lenOK_mono {c : Crossword V} {d e : V → List Word} (h : lenOK c d)
    (hsub : ∀ v, subD (e v) (d v)) : lenOK c e :=
  fun v hv w hw => h v hv w (hsub v w hw)

theorem ac3F_true_nonempty (c : Crossword V) :
    ∀ fuel q d, (∀ v : V, d v ≠ []) → (ac3F c fuel q d).1 = true →
      ∀ v : V, (ac3F c fuel q d).2 v ≠ [] := by
  intro fuel
  induction fuel with
  | zero => intro q d _ ht; simp [ac3F_zero] at ht
  | succ fuel ih =>
    intro q d hne ht
    cases q with
    | nil => rw [ac3F_nil]; exact hne
    | cons arc rest =>
      obtain ⟨x, y⟩ := arc
      rw [ac3F_cons] at ht ⊢
      by_cases hr : (revise c d x y).1 = true
      · rw [if_pos hr] at ht ⊢
        by_cases he : ((revise c d x y).2 x).isEmpty = true
        · rw [if_pos he] at ht; cases ht
        · rw [if_neg he] at ht ⊢
          refine ih _ _ ?_ ht
          intro v
          by_cases hv : v = x
          · rw [hv]
            simpa [List.isEmpty_iff] using he
          · rw [revise_snd_ne _ x y hv]
            exact hne v
      · rw [if_neg hr] at ht ⊢
        exact ih _ _ hne ht


theorem some_pair_inj {i₀ j₀ i j : Nat}
    (h : (some (i₀, j₀) : Option (Nat × Nat)) = some (i, j)) : i₀ = i ∧ j₀ = j := by
  injection h with h2
  injection h2 with h3 h4
  exact ⟨h3, h4⟩

theorem ac3F_sound_inv (c : Crossword V) :
    ∀ fuel q d, ac3Inv c q d → (ac3F c fuel q d).1 = true →
      ∀ x y i j, c.overlaps x y = some (i, j) →
        arcConsAt ((ac3F c fuel q d).2) x y i j := by
  intro fuel
  induction fuel with
  | zero => intro q d _ ht; simp [ac3F_zero] at ht
  | succ fuel ih =>
    intro q d hinv ht
    cases q with
    | nil =>
      rw [ac3F_nil] at ht ⊢
      intro x y i j ho
      rcases hinv x y i j ho with hq | hc
      · cases hq
      · exact hc
    | cons arc rest =>
      obtain ⟨x, y⟩ := arc
      rw [ac3F_cons] at ht ⊢
      by_cases hr : (revise c d x y).1 = true
      · rw [if_pos hr] at ht ⊢
        by_cases he : ((revise c d x y).2 x).isEmpty = true
        · rw [if_pos he] at ht; cases ht
        · rw [if_neg he] at ht ⊢
          obtain ⟨i₀, j₀, ho₀⟩ := revise_true_overlap hr
          obtain ⟨hxv, hyv, hxy⟩ := c.overlaps_mem x y i₀ j₀ ho₀
          refine ih _ _ ?_ ht
          intro u v i j ho
          rcases hinv u v i j ho with hq | hc
          · rcases List.mem_cons.mp hq with heq | hrest
            · rw [Prod.mk.injEq] at heq
              obtain ⟨hu, hv⟩ := heq
              right
              have ho' := ho
              rw [hu, hv, ho₀] at ho'
              obtain ⟨hi, hj⟩ := some_pair_inj ho'
              rw [hu, hv]
              intro w hw
              rw [revise_snd_x ho₀] at hw
              obtain ⟨hwx, hany⟩ := List.mem_filter.mp hw
              obtain ⟨wy, hwy, hbeq⟩ := List.any_eq_true.mp hany
              refine ⟨wy, ?_, ?_⟩
              · rw [revise_snd_ne _ x y (Ne.symm hxy)]
                exact hwy
              · rw [← hi, ← hj]
                simpa using hbeq
            · exact Or.inl (List.mem_append_left _ hrest)
          · obtain ⟨huv₁, hvv₁, huv⟩ := c.overlaps_mem u v i j ho
            by_cases hvx : v = x
            · by_cases huy : u = y
              · right
                have hsy := c.overlaps_symm u v i j ho
                rw [hvx, huy] at hsy
                rw [ho₀] at hsy
                obtain ⟨hj, hi⟩ := some_pair_inj hsy
                have hux : u ≠ x := by rw [huy]; exact Ne.symm hxy
                intro w hw
                rw [revise_snd_ne _ x y hux] at hw
                obtain ⟨wx, hwx, heq⟩ := hc w hw
                rw [hvx] at hwx
                refine ⟨wx, ?_, heq⟩
                rw [hvx, revise_snd_x ho₀]
                refine List.mem_filter.mpr ⟨hwx, List.any_eq_true.mpr ⟨w, ?_, ?_⟩⟩
                · rw [← huy]
                  exact hw
                · rw [hj, hi]
                  simpa using heq.symm
              · left
                apply List.mem_append_right
                refine List.mem_map.mpr ⟨u, List.mem_filter.mpr ⟨?_, by simpa using huy⟩, ?_⟩
                · refine neighbors_mem_iff.mpr ⟨huv₁, ?_, ?_⟩
                  · rw [hvx] at huv
                    exact huv
                  · have := c.overlaps_symm u v i j ho
                    rw [hvx] at this
                    rw [this]
                    rfl
                · rw [hvx]
            · right
              intro w hw
              have hw' : w ∈ d u := revise_sub d x y u w hw
              obtain ⟨wv, hwv, heq⟩ := hc w hw'
              refine ⟨wv, ?_, heq⟩
              rw [revise_snd_ne _ x y hvx]
              exact hwv
      · rw [if_neg hr] at ht ⊢
        refine ih _ _ ?_ ht
        intro u v i j ho
        rcases hinv u v i j ho with hq | hc
        · rcases List.mem_cons.mp hq with heq | hrest
          · rw [Prod.mk.injEq] at heq
            obtain ⟨hu, hv⟩ := heq
            right
            rw [hu, hv]
            refine revise_false_arcCons ?_ (by simpa using hr)
            rw [← hu, ← hv]
            exact ho
          · exact Or.inl hrest
        · exact Or.inr hc

theorem mem_allArcs {c : Crossword V} {x y : V} {i j : Nat}
    (ho : c.overlaps x y = some (i, j)) : (x, y) ∈ allArcs c := by
  obtain ⟨hx, hy, hxy⟩ := c.overlaps_mem x y i j ho
  refine List.mem_flatMap.mpr ⟨x, hx, ?_⟩
  refine List.mem_map.mpr ⟨y, ?_, rfl⟩
  exact neighbors_mem_iff.mpr ⟨hy, Ne.symm hxy, by rw [ho]; rfl⟩

theorem ac3_sound (c : Crossword V) (d : V → List Word)
    (ht : (ac3 c d).1 = true) :
    ∀ x y i j, c.overlaps x y = some (i, j) → arcConsAt ((ac3 c d).2) x y i j := by
  apply ac3F_sound_inv
  · intro x y i j ho
    exact Or.inl (mem_allArcs ho)
  · exact ht

theorem revise_of_arcCons {c : Crossword V} {d : V → List Word} {x y : V}
    (hAC : ∀ i j, c.overlaps x y = some (i, j) → arcConsAt d x y i j) :
    revise c d x y = (false, d) := by
  cases ho : c.overlaps x y with
  | none => exact revise_of_none ho
  | some o =>
    obtain ⟨i, j⟩ := o
    have hnil : (d x).filter
        (fun wx => !((d y).any (fun wy => charAt wx i == charAt wy j))) = [] := by
      apply List.filter_eq_nil_iff.mpr
      intro w hw
      obtain ⟨u, hu, he⟩ := hAC i j ho w hw
      have hany : (d y).any (fun wy => charAt w i == charAt wy j) = true := by
        refine List.any_eq_true.mpr ⟨u, hu, ?_⟩
        simpa using he
      simp [hany]
    simp [revise, ho, hnil]

theorem ac3F_drain (c : Crossword V) (d : V → List Word)
    (hAC : ∀ x y i j, c.overlaps x y = some (i, j) → arcConsAt d x y i j) :
    ∀ q fuel, q.length < fuel → ac3F c fuel q d = (true, d) := by
  intro q
  induction q with
  | nil =>
    intro fuel hf
    cases fuel with
    | zero => omega
    | succ f => exact ac3F_nil c f d
  | cons arc rest ih =>
    obtain ⟨x, y⟩ := arc
    intro fuel hf
    cases fuel with
    | zero => simp at hf
    | succ f =>
      rw [ac3F_cons]
      have hrf : revise c d x y = (false, d) := revise_of_arcCons (fun i j ho => hAC x y i j ho)
      rw [hrf]
      simp only [Bool.false_eq_true, if_false]
      exact ih f (by simp at hf; omega)

theorem neighbors_length_le (c : Crossword V) (x : V) :
    (neighbors c x).length ≤ c.vars.length :=
  List.length_filter_le _ _

theorem revise_keeps_solution {c : Crossword V} {S : V → Word} (hsol : isSolution c S)
    {d : V → List Word} (hd : ∀ v ∈ c.vars, S v ∈ d v) (x y : V) :
    ∀ v ∈ c.vars, S v ∈ (revise c d x y).2 v := by
  intro v hv
  by_cases hvx : v = x
  · rw [hvx]
    cases ho : c.overlaps x y with
    | none => rw [revise_of_none ho]; exact hd x (hvx ▸ hv)
    | some o =>
      obtain ⟨i, j⟩ := o
      rw [revise_snd_x ho]
      obtain ⟨hx, hy, _⟩ := c.overlaps_mem x y i j ho
      refine List.mem_filter.mpr ⟨hd x hx, ?_⟩
      exact List.any_eq_true.mpr ⟨S y, hd y hy, by simpa using hsol.2.2.2 x y i j ho⟩
  · rw [revise_snd_ne _ x y hvx]
    exact hd v hv

theorem ac3F_solution (c : Crossword V) {S : V → Word} (hsol : isSolution c S) :
    ∀ fuel q d, (∀ v ∈ c.vars, S v ∈ d v) →
      q.length + totalSize c d * c.vars.length < fuel →
      (ac3F c fuel q d).1 = true ∧ ∀ v ∈ c.vars, S v ∈ (ac3F c fuel q d).2 v := by
  intro fuel
  induction fuel with
  | zero => intro q d _ hb; omega
  | succ fuel ih =>
    intro q d hd hb
    cases q with
    | nil => rw [ac3F_nil]; exact ⟨rfl, hd⟩
    | cons arc rest =>
      obtain ⟨x, y⟩ := arc
      rw [ac3F_cons]
      by_cases hr : (revise c d x y).1 = true
      · have hd2 := revise_keeps_solution hsol hd x y
        obtain ⟨i₀, j₀, ho₀⟩ := revise_true_overlap hr
        have hx : x ∈ c.vars := (c.overlaps_mem x y i₀ j₀ ho₀).1
        have hne : ¬((revise c d x y).2 x).isEmpty = true := by
          have hmem := hd2 x hx
          cases h2 : (revise c d x y).2 x with
          | nil => rw [h2] at hmem; cases hmem
          | cons _ _ => simp [h2]
        rw [if_pos hr, if_neg hne]
        apply ih
        · exact hd2
        · have hpush : ((neighbors c x).filter (fun z => decide (z ≠ y))).length ≤
              c.vars.length :=
            le_trans (List.length_filter_le _ _) (neighbors_length_le c x)
          have hsz : totalSize c ((revise c d x y).2) < totalSize c d := by
            apply sum_map_lt _ _ c.vars c.vars_nodup hx (revise_true_length hr)
            intro v hv
            rw [revise_snd_ne _ x y hv]
          have hmul : totalSize c ((revise c d x y).2) * c.vars.length + c.vars.length ≤
              totalSize c d * c.vars.length := by
            calc totalSize c ((revise c d x y).2) * c.vars.length + c.vars.length
                = (totalSize c ((revise c d x y).2) + 1) * c.vars.length := by ring
              _ ≤ totalSize c d * c.vars.length :=
                  Nat.mul_le_mul_right _ (Nat.succ_le_of_lt hsz)
          simp only [List.length_append, List.length_map, List.length_cons] at hb ⊢
          omega
      · rw [if_neg hr]
        have hrf := revise_fst_false_eq (by simpa using hr)
        apply ih
        · exact hd
        · simp only [List.length_cons] at hb
          omega

theorem ac3_solution (c : Crossword V) {S : V → Word} (hsol : isSolution c S)
    (d : V → List Word) (hd : ∀ v ∈ c.vars, S v ∈ d v) :
    (ac3 c d).1 = true ∧ ∀ v ∈ c.vars, S v ∈ (ac3 c d).2 v := by
  apply ac3F_solution c hsol
  · exact hd
  · omega

theorem ac3_drain_eq (c : Crossword V) (d : V → List Word)
    (hAC : ∀ x y i j, c.overlaps x y = some (i, j) → arcConsAt d x y i j) :
    ac3 c d = (true, d) := by
  apply ac3F_drain c d hAC
  omega

/-! ### Lemmas about value ordering and variable selection -/

theorem mem_insertByKey {key : Word → Nat} {w u : Word} {l : List Word} :
    u ∈ insertByKey key w l ↔ u = w ∨ u ∈ l := by
  induction l with
  | nil => simp [insertByKey]
  | cons v rest ih =>
    by_cases h : key w ≤ key v
    · simp [insertByKey, h]
    · simp only [insertByKey, if_neg h, List.mem_cons, ih]
      tauto

theorem mem_sortByKey {key : Word → Nat} {u : Word} {l : List Word} :
    u ∈ sortByKey key l ↔ u ∈ l := by
  induction l with
  | nil => simp [sortByKey]
  | cons w rest ih => simp [sortByKey, mem_insertByKey, ih]

theorem minBy_cons (lt : V → V → Bool) (best v : V) (rest : List V) :
    minBy lt best (v :: rest) = minBy lt (if lt v best then v else best) rest := rfl

theorem minBy_mem (lt : V → V → Bool) :
    ∀ (l : List V) (best : V), minBy lt best l ∈ best :: l := by
  intro l
  induction l with
  | nil => intro best; simp [minBy]
  | cons v rest ih =>
    intro best
    rw [minBy_cons]
    by_cases hb : lt v best = true
    · rw [if_pos hb]
      rcases List.mem_cons.mp (ih v) with h1 | h1
      · rw [h1]; simp
      · simp [List.mem_cons, h1]
    · rw [if_neg hb]
      rcases List.mem_cons.mp (ih best) with h1 | h1
      · rw [h1]; simp
      · simp [List.mem_cons, h1]

theorem minBy_size_le (c : Crossword V) (d : V → List Word) :
    ∀ (l : List V) (best u : V), u ∈ best :: l →
      (d (minBy (mrvLt c d) best l)).length ≤ (d u).length := by
  intro l
  induction l with
  | nil =>
    intro best u hu
    rcases List.mem_cons.mp hu with h | h
    · rw [h]; exact le_refl _
    · cases h
  | cons v rest ih =>
    intro best u hu
    rw [minBy_cons]
    have hb' : (d (if mrvLt c d v best then v else best)).length ≤ (d best).length ∧
        (d (if mrvLt c d v best then v else best)).length ≤ (d v).length := by
      by_cases hb : mrvLt c d v best = true
      · have hb2 := hb
        simp only [mrvLt, Bool.or_eq_true, Bool.and_eq_true, decide_eq_true_eq,
          beq_iff_eq] at hb2
        rw [if_pos hb]
        refine ⟨?_, le_refl _⟩
        rcases hb2 with h1 | ⟨h1, _⟩ <;> omega
      · have hb2 := hb
        simp only [mrvLt, Bool.or_eq_true, Bool.and_eq_true, decide_eq_true_eq,
          beq_iff_eq, not_or, not_and, not_lt] at hb2
        rw [if_neg hb]
        exact ⟨le_refl _, hb2.1⟩
    rcases List.mem_cons.mp hu with h | h
    · rw [h]
      exact le_trans (ih _ _ (List.mem_cons_self _ _)) hb'.1
    · rcases List.mem_cons.mp h with h2 | h2
      · rw [h2]
        exact le_trans (ih _ _ (List.mem_cons_self _ _)) hb'.2
      · exact ih _ u (List.mem_cons_of_mem _ h2)

theorem selectUnassigned_some_mem {c : Crossword V} {d : V → List Word}
    {a : Assignment V} {var : V} (h : selectUnassigned c d a = some var) :
    var ∈ c.vars ∧ hasKey a var = false := by
  unfold selectUnassigned at h
  cases hf : c.vars.filter (fun v => !(hasKey a v)) with
  | nil => rw [hf] at h; cases h
  | cons u rest =>
    rw [hf] at h
    injection h with h2
    have hm : var ∈ u :: rest := h2 ▸ minBy_mem _ rest u
    rw [← hf] at hm
    have hm2 := List.mem_filter.mp hm
    exact ⟨hm2.1, by simpa using hm2.2⟩

theorem selectUnassigned_isSome {c : Crossword V} {d : V → List Word} {a : Assignment V}
    (hsub : ∀ e ∈ a, (e : V × Word).1 ∈ c.vars) (hnd : (a.map Prod.fst).Nodup)
    (hlen : a.length ≠ c.vars.length) :
    ∃ var, selectUnassigned c d a = some var := by
  cases hf : c.vars.filter (fun v => !(hasKey a v)) with
  | cons u rest => exact ⟨_, by unfold selectUnassigned; rw [hf]⟩
  | nil =>
    exfalso
    have hall : ∀ v ∈ c.vars, hasKey a v = true := by
      intro v hv
      by_contra hkv
      have hvf : v ∈ c.vars.filter (fun v => !(hasKey a v)) := by
        refine List.mem_filter.mpr ⟨hv, ?_⟩
        simp [Bool.eq_false_iff.mpr hkv]
      rw [hf] at hvf
      cases hvf
    have h1 : c.vars.length ≤ a.length := by
      have hsubset : c.vars.toFinset ⊆ (a.map Prod.fst).toFinset := by
        intro v hv
        rw [List.mem_toFinset] at hv ⊢
        exact alookup_isSome_iff.mp (hall v hv)
      have := Finset.card_le_card hsubset
      rw [List.toFinset_card_of_nodup c.vars_nodup, List.toFinset_card_of_nodup hnd,
        List.length_map] at this
      exact this
    have h2 : a.length ≤ c.vars.length := by
      have hsubset : (a.map Prod.fst).toFinset ⊆ c.vars.toFinset := by
        intro v hv
        rw [List.mem_toFinset] at hv ⊢
        obtain ⟨e, he, hev⟩ := List.mem_map.mp hv
        rw [← hev]
        exact hsub e he
      have := Finset.card_le_card hsubset
      rw [List.toFinset_card_of_nodup c.vars_nodup, List.toFinset_card_of_nodup hnd,
        List.length_map] at this
      exact this
    omega

/-! ### Lemmas about `consistent` -/


theorem consChecks_cons (c : Crossword V) (a : Assignment V) (v : V) (w : Word)
    (rest : List (V × Word)) (seen : List Word)
    (h : consChecks c a ((v, w) :: rest) seen = true) :
    w ∉ seen ∧ w.length = c.length v ∧ nbChecks c a v w = true ∧
      consChecks c a rest (w :: seen) = true := by
  simp only [consChecks] at h
  by_cases h1 : w ∈ seen
  · rw [if_pos h1] at h; cases h
  · rw [if_neg h1] at h
    by_cases h2 : (w.length != c.length v) = true
    · rw [if_pos h2] at h; cases h
    · rw [if_neg h2] at h
      by_cases h3 : nbChecks c a v w = true
      · rw [if_pos h3] at h
        refine ⟨h1, ?_, h3, h⟩
        have h2' : (w.length != c.length v) = false := by
          cases hb : (w.length != c.length v)
          · rfl
          · exact absurd hb h2
        simpa using h2'
      · rw [if_neg h3] at h; cases h

theorem consChecks_props (c : Crossword V) (a : Assignment V) :
    ∀ (l : List (V × Word)) (seen : List Word), consChecks c a l seen = true →
      (∀ e ∈ l, (e : V × Word).2.length = c.length e.1) ∧
      (∀ e ∈ l, nbChecks c a (e : V × Word).1 e.2 = true) ∧
      (∀ e ∈ l, (e : V × Word).2 ∉ seen) ∧
      List.Pairwise (fun e₁ e₂ : V × Word => e₁.2 ≠ e₂.2) l := by
  intro l
  induction l with
  | nil => intro seen _; exact ⟨by simp, by simp, by simp, List.Pairwise.nil⟩
  | cons e rest ih =>
    obtain ⟨v, w⟩ := e
    intro seen h
    obtain ⟨h1, h2, h3, h4⟩ := consChecks_cons c a v w rest seen h
    obtain ⟨ihlen, ihnb, ihseen, ihpw⟩ := ih _ h4
    refine ⟨?_, ?_, ?_, ?_⟩
    · intro e he
      rcases List.mem_cons.mp he with he1 | he1
      · rw [he1]; exact h2
      · exact ihlen e he1
    · intro e he
      rcases List.mem_cons.mp he with he1 | he1
      · rw [he1]; exact h3
      · exact ihnb e he1
    · intro e he
      rcases List.mem_cons.mp he with he1 | he1
      · rw [he1]; exact h1
      · exact fun hs => ihseen e he1 (List.mem_cons_of_mem _ hs)
    · refine List.Pairwise.cons ?_ ihpw
      intro e' he' heq
      exact ihseen e' he' (by rw [← heq]; exact List.mem_cons_self _ _)

theorem sat_of {c : Crossword V} {r : Assignment V} (hk : goodKeys c r)
    (hcons : consistentB c r = true) (hlen : r.length = c.vars.length) :
    satisfies c r := by
  obtain ⟨hnd, hsub⟩ := hk
  obtain ⟨hlens, hnbs, _, hpw⟩ := consChecks_props c r r [] hcons
  refine ⟨?_, ?_, ?_, ?_⟩
  · intro v hv
    have heq : (r.map Prod.fst).toFinset = c.vars.toFinset := by
      apply Finset.eq_of_subset_of_card_le
      · intro u hu
        rw [List.mem_toFinset] at hu ⊢
        obtain ⟨e, he, hev⟩ := List.mem_map.mp hu
        rw [← hev]; exact hsub e he
      · rw [List.toFinset_card_of_nodup c.vars_nodup, List.toFinset_card_of_nodup hnd,
          List.length_map, hlen]
    have hvk : v ∈ r.map Prod.fst := by
      rw [← List.mem_toFinset, heq, List.mem_toFinset]
      exact hv
    exact Option.isSome_iff_exists.mp (alookup_isSome_iff.mpr hvk)
  · intro v w hv hl
    exact hlens (v, w) (alookup_mem hl)
  · intro x y wx wy hx hy hxy hlx hly
    have hne : ((x, wx) : V × Word) ≠ (y, wy) := by
      intro heq
      rw [Prod.mk.injEq] at heq
      exact hxy heq.1
    have hsym : Symmetric (fun e₁ e₂ : V × Word => e₁.2 ≠ e₂.2) :=
      fun _ _ h => Ne.symm h
    exact hpw.forall hsym (alookup_mem hlx) (alookup_mem hly) hne
  · intro x y i j wx wy ho hlx hly
    have hnb := hnbs (x, wx) (alookup_mem hlx)
    obtain ⟨hx, hy, hxy⟩ := c.overlaps_mem x y i j ho
    have hynb : y ∈ neighbors c x := neighbors_mem_iff.mpr ⟨hy, Ne.symm hxy, by rw [ho]; rfl⟩
    have hall := List.all_eq_true.mp hnb y hynb
    simp only [hly, ho] at hall
    simpa using hall

theorem consChecks_of_solution {c : Crossword V} {S : V → Word} (hsol : isSolution c S)
    {a : Assignment V} (ha : ∀ e ∈ a, S (e : V × Word).1 = e.2 ∧ e.1 ∈ c.vars) :
    ∀ (l : List (V × Word)) (seen : List Word),
      (∀ e ∈ l, e ∈ a) →
      List.Pairwise (fun e₁ e₂ : V × Word => e₁.1 ≠ e₂.1) l →
      (∀ w ∈ seen, ∀ e ∈ l, (e : V × Word).2 ≠ w) →
      consChecks c a l seen = true := by
  intro l
  induction l with
  | nil => intro seen _ _ _; rfl
  | cons e rest ih =>
    obtain ⟨v, w⟩ := e
    intro seen hsubl hpw hseen
    obtain ⟨hSv, hvv⟩ := ha (v, w) (hsubl (v, w) (List.mem_cons_self _ _))
    simp only [consChecks]
    have hws : w ∉ seen := fun hws => hseen w hws (v, w) (List.mem_cons_self _ _) rfl
    rw [if_neg hws]
    have hwl : ¬((w.length != c.length v) = true) := by
      have hl := hsol.2.1 v hvv
      rw [hSv] at hl
      simp [hl]
    rw [if_neg hwl]
    have hnb : nbChecks c a v w = true := by
      apply List.all_eq_true.mpr
      intro nb hnbm
      cases hal : alookup a nb with
      | none => simp [hal]
      | some wn =>
        obtain ⟨hSnb, hnbv⟩ := ha (nb, wn) (alookup_mem hal)
        cases hov : c.overlaps v nb with
        | none => simp [hal, hov]
        | some o =>
          obtain ⟨i, j⟩ := o
          simp only [hal, hov]
          have hq := hsol.2.2.2 v nb i j hov
          rw [hSv, hSnb] at hq
          simpa using hq
    rw [if_pos hnb]
    apply ih
    · intro e he
      exact hsubl e (List.mem_cons_of_mem _ he)
    · exact (List.pairwise_cons.mp hpw).2
    · intro w' hw' e he
      rcases List.mem_cons.mp hw' with h1 | h1
      · rw [h1]
        obtain ⟨hSe, hev⟩ := ha e (hsubl e (List.mem_cons_of_mem _ he))
        have hSv' : S v = w := hSv
        have hvv' : v ∈ c.vars := hvv
        have hne : (e : V × Word).1 ≠ v :=
          Ne.symm ((List.pairwise_cons.mp hpw).1 e he)
        rw [← hSe, ← hSv']
        exact hsol.2.2.1 e.1 hev v hvv' hne
      · exact hseen w' h1 e (List.mem_cons_of_mem _ he)

theorem consistentB_of_solution {c : Crossword V} {S : V → Word} (hsol : isSolution c S)
    {a : Assignment V} (hk : goodKeys c a)
    (hag : ∀ e ∈ a, S (e : V × Word).1 = e.2) : consistentB c a = true := by
  have ha : ∀ e ∈ a, S (e : V × Word).1 = e.2 ∧ e.1 ∈ c.vars :=
    fun e he => ⟨hag e he, hk.2 e he⟩
  apply consChecks_of_solution hsol ha a []
  · exact fun e he => he
  · have := hk.1
    rw [List.Nodup, List.pairwise_map] at this
    exact this
  · intro w hw
    cases hw

/-! ### Lemmas about the backtracking driver -/

theorem tryVals_nil (c : Crossword V)
    (bt : (V → List Word) → Assignment V → Option (Assignment V) × (V → List Word))
    (d : V → List Word) (a : Assignment V) (var : V) :
    tryVals c bt d a var [] = (none, d) := rfl

theorem tryVals_cons (c : Crossword V)
    (bt : (V → List Word) → Assignment V → Option (Assignment V) × (V → List Word))
    (d : V → List Word) (a : Assignment V) (var : V) (w : Word) (ws : List Word) :
    tryVals c bt d a var (w :: ws) =
      if consistentB c (a ++ [(var, w)]) then
        if (ac3 c d).1 then
          if pyTruthy (bt (ac3 c d).2 (a ++ [(var, w)])).1 then
            bt (ac3 c d).2 (a ++ [(var, w)])
          else tryVals c bt d a var ws
        else tryVals c bt d a var ws
      else tryVals c bt d a var ws := rfl

theorem backtrackF_zero (c : Crossword V) (d : V → List Word) (a : Assignment V) :
    backtrackF c 0 d a = (none, d) := rfl

theorem backtrackF_succ (c : Crossword V) (fuel : Nat) (d : V → List Word)
    (a : Assignment V) :
    backtrackF c (fuel + 1) d a =
      if assignmentComplete c a then (some a, d)
      else
        match selectUnassigned c d a with
        | none => (none, d)
        | some var =>
          tryVals c (fun d' a' => backtrackF c fuel d' a') d a var
            (orderDomainValues c d a var) := rfl

theorem goodKeys_append {c : Crossword V} {a : Assignment V} {var : V} (w : Word)
    (hk : goodKeys c a) (hvar : var ∈ c.vars) (hnew : hasKey a var = false) :
    goodKeys c (a ++ [(var, w)]) := by
  constructor
  · rw [List.map_append, List.nodup_append]
    refine ⟨hk.1, List.nodup_singleton _, ?_⟩
    intro u hu hu2
    simp only [List.map_cons, List.map_nil, List.mem_singleton] at hu2
    rw [hu2] at hu
    exact (hasKey_false_iff.mp hnew) hu
  · intro e he
    rcases List.mem_append.mp he with he1 | he1
    · exact hk.2 e he1
    · rw [List.mem_singleton.mp he1]
      exact hvar

theorem tryVals_sound {c : Crossword V}
    {bt : (V → List Word) → Assignment V → Option (Assignment V) × (V → List Word)}
    (Hbt : ∀ d' a', goodKeys c a' → consistentB c a' = true →
      ∀ r, (bt d' a').1 = some r →
        goodKeys c r ∧ consistentB c r = true ∧ r.length = c.vars.length)
    {d : V → List Word} {a : Assignment V} {var : V}
    (hk : goodKeys c a) (hvar : var ∈ c.vars) (hnew : hasKey a var = false) :
    ∀ ws r, (tryVals c bt d a var ws).1 = some r →
      goodKeys c r ∧ consistentB c r = true ∧ r.length = c.vars.length := by
  intro ws
  induction ws with
  | nil => intro r h; cases h
  | cons w rest ih =>
    intro r h
    rw [tryVals_cons] at h
    by_cases h1 : consistentB c (a ++ [(var, w)]) = true
    · rw [if_pos h1] at h
      by_cases h2 : (ac3 c d).1 = true
      · rw [if_pos h2] at h
        by_cases h3 : pyTruthy (bt (ac3 c d).2 (a ++ [(var, w)])).1 = true
        · rw [if_pos h3] at h
          exact Hbt _ _ (goodKeys_append w hk hvar hnew) h1 r h
        · rw [if_neg h3] at h; exact ih r h
      · rw [if_neg h2] at h; exact ih r h
    · rw [if_neg h1] at h; exact ih r h

theorem backtrackF_sound (c : Crossword V) :
    ∀ fuel d a, goodKeys c a → consistentB c a = true →
      ∀ r, (backtrackF c fuel d a).1 = some r →
        goodKeys c r ∧ consistentB c r = true ∧ r.length = c.vars.length := by
  intro fuel
  induction fuel with
  | zero => intro d a _ _ r h; cases h
  | succ fuel ih =>
    intro d a hk hcons r h
    rw [backtrackF_succ] at h
    by_cases hc : assignmentComplete c a = true
    · rw [if_pos hc] at h
      simp only [Option.some.injEq] at h
      rw [← h]
      exact ⟨hk, hcons, by simpa [assignmentComplete] using hc⟩
    · rw [if_neg hc] at h
      cases hs : selectUnassigned c d a with
      | none => rw [hs] at h; cases h
      | some var =>
        rw [hs] at h
        obtain ⟨hvar, hnew⟩ := selectUnassigned_some_mem hs
        exact tryVals_sound (fun d' a' hk' hcons' r' h' => ih d' a' hk' hcons' r' h')
          hk hvar hnew _ r h

theorem ac3_sub (c : Crossword V) (d : V → List Word) (v : V) :
    subD ((ac3 c d).2 v) (d v) := ac3F_sub c _ _ d v

theorem tryVals_dkeep {c : Crossword V}
    {bt : (V → List Word) → Assignment V → Option (Assignment V) × (V → List Word)}
    {d : V → List Word} (hdrain : ac3 c d = (true, d))
    (Hbt : ∀ a', (bt d a').2 = d) (a : Assignment V) (var : V) :
    ∀ ws, (tryVals c bt d a var ws).2 = d := by
  intro ws
  induction ws with
  | nil => rfl
  | cons w rest ih =>
    rw [tryVals_cons]
    by_cases h1 : consistentB c (a ++ [(var, w)]) = true
    · rw [if_pos h1]
      simp only [hdrain]
      by_cases h3 : pyTruthy ((bt d (a ++ [(var, w)])).1) = true
      · simp only [if_pos h3, if_pos rfl]
        exact Hbt _
      · simp only [if_neg h3, if_pos rfl]
        exact ih
    · rw [if_neg h1]; exact ih

theorem backtrackF_dkeep (c : Crossword V) (d : V → List Word)
    (hdrain : ac3 c d = (true, d)) :
    ∀ fuel a, (backtrackF c fuel d a).2 = d := by
  intro fuel
  induction fuel with
  | zero => intro a; rfl
  | succ fuel ih =>
    intro a
    rw [backtrackF_succ]
    by_cases hc : assignmentComplete c a = true
    · rw [if_pos hc]
    · rw [if_neg hc]
      cases hs : selectUnassigned c d a with
      | none => rfl
      | some var => exact tryVals_dkeep hdrain (fun a' => ih a') a var _

theorem tryVals_sub {c : Crossword V}
    {bt : (V → List Word) → Assignment V → Option (Assignment V) × (V → List Word)}
    (Hbt : ∀ d' a' v, subD ((bt d' a').2 v) (d' v))
    (d : V → List Word) (a : Assignment V) (var : V) :
    ∀ ws v, subD ((tryVals c bt d a var ws).2 v) (d v) := by
  intro ws
  induction ws with
  | nil => intro v; exact subD_refl _
  | cons w rest ih =>
    intro v
    rw [tryVals_cons]
    by_cases h1 : consistentB c (a ++ [(var, w)]) = true
    · rw [if_pos h1]
      by_cases h2 : (ac3 c d).1 = true
      · rw [if_pos h2]
        by_cases h3 : pyTruthy ((bt (ac3 c d).2 (a ++ [(var, w)])).1) = true
        · rw [if_pos h3]
          exact subD_trans (Hbt _ _ v) (ac3_sub c d v)
        · rw [if_neg h3]; exact ih v
      · rw [if_neg h2]; exact ih v
    · rw [if_neg h1]; exact ih v

theorem backtrackF_sub (c : Crossword V) :
    ∀ fuel d a v, subD ((backtrackF c fuel d a).2 v) (d v) := by
  intro fuel
  induction fuel with
  | zero => intro d a v; exact subD_refl _
  | succ fuel ih =>
    intro d a v
    rw [backtrackF_succ]
    by_cases hc : assignmentComplete c a = true
    · rw [if_pos hc]; exact subD_refl _
    · rw [if_neg hc]
      cases hs : selectUnassigned c d a with
      | none => exact subD_refl _
      | some var => exact tryVals_sub (fun d' a' v' => ih d' a' v') d a var _ v

theorem tryVals_none {c : Crossword V}
    {bt : (V → List Word) → Assignment V → Option (Assignment V) × (V → List Word)}
    {d : V → List Word} {a : Assignment V} {var : V} :
    ∀ ws, (tryVals c bt d a var ws).1 = none → (tryVals c bt d a var ws).2 = d := by
  intro ws
  induction ws with
  | nil => intro _; rfl
  | cons w rest ih =>
    intro h
    rw [tryVals_cons] at h ⊢
    by_cases h1 : consistentB c (a ++ [(var, w)]) = true
    · rw [if_pos h1] at h ⊢
      by_cases h2 : (ac3 c d).1 = true
      · rw [if_pos h2] at h ⊢
        by_cases h3 : pyTruthy ((bt (ac3 c d).2 (a ++ [(var, w)])).1) = true
        · rw [if_pos h3] at h
          exfalso
          cases hres : (bt (ac3 c d).2 (a ++ [(var, w)])).1 with
          | none => rw [hres] at h3; cases h3
          | some r => rw [hres] at h; cases h
        · rw [if_neg h3] at h ⊢; exact ih h
      · rw [if_neg h2] at h ⊢; exact ih h
    · rw [if_neg h1] at h ⊢; exact ih h

theorem backtrackF_none (c : Crossword V) (fuel : Nat) (d : V → List Word)
    (a : Assignment V) :
    (backtrackF c fuel d a).1 = none → (backtrackF c fuel d a).2 = d := by
  cases fuel with
  | zero => intro _; rfl
  | succ fuel =>
    intro h
    rw [backtrackF_succ] at h ⊢
    by_cases hc : assignmentComplete c a = true
    · rw [if_pos hc] at h; cases h
    · rw [if_neg hc] at h ⊢
      cases hs : selectUnassigned c d a with
      | none => rfl
      | some var =>
        rw [hs] at h
        exact tryVals_none _ h

/-! ### Completeness of the backtracking search -/

theorem goodKeys_length_le {c : Crossword V} {a : Assignment V} (hk : goodKeys c a) :
    a.length ≤ c.vars.length := by
  have hsubset : (a.map Prod.fst).toFinset ⊆ c.vars.toFinset := by
    intro u hu
    rw [List.mem_toFinset] at hu ⊢
    obtain ⟨e, he, hev⟩ := List.mem_map.mp hu
    rw [← hev]; exact hk.2 e he
  have hcard := Finset.card_le_card hsubset
  rw [List.toFinset_card_of_nodup hk.1, List.toFinset_card_of_nodup c.vars_nodup,
    List.length_map] at hcard
  exact hcard

theorem tryVals_complete {c : Crossword V} {S : V → Word} (hsol : isSolution c S)
    {bt : (V → List Word) → Assignment V → Option (Assignment V) × (V → List Word)}
    {d : V → List Word} {a : Assignment V} {var : V}
    (hk : goodKeys c a) (hag : ∀ e ∈ a, S (e : V × Word).1 = e.2)
    (hvar : var ∈ c.vars) (hnew : hasKey a var = false)
    (hd : ∀ v ∈ c.vars, S v ∈ d v)
    (Hbt : ∀ d', (∀ v ∈ c.vars, S v ∈ d' v) →
      ∃ r, (bt d' (a ++ [(var, S var)])).1 = some r ∧ r.length = c.vars.length) :
    ∀ ws, S var ∈ ws → ∃ r, (tryVals c bt d a var ws).1 = some r := by
  intro ws
  induction ws with
  | nil => intro h; cases h
  | cons w rest ih =>
    intro hmem
    rw [tryVals_cons]
    by_cases h1 : consistentB c (a ++ [(var, w)]) = true
    · rw [if_pos h1]
      have h2 : (ac3 c d).1 = true := (ac3_solution c hsol d hd).1
      rw [if_pos h2]
      by_cases h3 : pyTruthy ((bt (ac3 c d).2 (a ++ [(var, w)])).1) = true
      · rw [if_pos h3]
        cases hres : (bt (ac3 c d).2 (a ++ [(var, w)])).1 with
        | none => rw [hres] at h3; cases h3
        | some r => exact ⟨r, rfl⟩
      · rw [if_neg h3]
        apply ih
        rcases List.mem_cons.mp hmem with hw | hw
        · exfalso
          rw [← hw] at h3
          obtain ⟨r, hr, hrlen⟩ := Hbt (ac3 c d).2 ((ac3_solution c hsol d hd).2)
          apply h3
          rw [hr]
          cases r with
          | nil =>
            exfalso
            cases hv : c.vars with
            | nil => rw [hv] at hvar; cases hvar
            | cons p q => rw [hv] at hrlen; simp at hrlen
          | cons e es => rfl
        · exact hw
    · rw [if_neg h1]
      apply ih
      rcases List.mem_cons.mp hmem with hw | hw
      · exfalso
        apply h1
        rw [← hw]
        apply consistentB_of_solution hsol (goodKeys_append _ hk hvar hnew)
        intro e he
        rcases List.mem_append.mp he with he1 | he1
        · exact hag e he1
        · rw [List.mem_singleton.mp he1]
      · exact hw

theorem backtrackF_complete (c : Crossword V) {S : V → Word} (hsol : isSolution c S) :
    ∀ fuel a d, goodKeys c a → (∀ e ∈ a, S (e : V × Word).1 = e.2) →
      (∀ v ∈ c.vars, S v ∈ d v) →
      c.vars.length + 1 ≤ fuel + a.length →
      ∃ r, (backtrackF c fuel d a).1 = some r := by
  intro fuel
  induction fuel with
  | zero =>
    intro a d hk _ _ hfuel
    exfalso
    have h2 := goodKeys_length_le hk
    omega
  | succ fuel ih =>
    intro a d hk hag hd hfuel
    rw [backtrackF_succ]
    by_cases hc : assignmentComplete c a = true
    · rw [if_pos hc]; exact ⟨a, rfl⟩
    · rw [if_neg hc]
      have hlen : a.length ≠ c.vars.length := by simpa [assignmentComplete] using hc
      obtain ⟨var, hs⟩ := selectUnassigned_isSome hk.2 hk.1 hlen
      rw [hs]
      obtain ⟨hvar, hnew⟩ := selectUnassigned_some_mem hs
      have hmem : S var ∈ orderDomainValues c d a var :=
        mem_sortByKey.mpr (hd var hvar)
      have hk' := goodKeys_append (S var) hk hvar hnew
      have hag' : ∀ e ∈ a ++ [(var, S var)], S (e : V × Word).1 = e.2 := by
        intro e he
        rcases List.mem_append.mp he with he1 | he1
        · exact hag e he1
        · rw [List.mem_singleton.mp he1]
      have Hbt : ∀ d', (∀ v ∈ c.vars, S v ∈ d' v) →
          ∃ r, (backtrackF c fuel d' (a ++ [(var, S var)])).1 = some r ∧
            r.length = c.vars.length := by
        intro d' hd'
        have hfl : c.vars.length + 1 ≤ fuel + (a ++ [(var, S var)]).length := by
          rw [List.length_append]
          simp only [List.length_cons, List.length_nil]
          omega
        obtain ⟨r, hr⟩ := ih (a ++ [(var, S var)]) d' hk' hag' hd' hfl
        refine ⟨r, hr, ?_⟩
        have hcons' : consistentB c (a ++ [(var, S var)]) = true :=
          consistentB_of_solution hsol hk' hag'
        exact (backtrackF_sound c fuel d' _ hk' hcons' r hr).2.2
      exact tryVals_complete hsol hk hag hvar hnew hd Hbt _ hmem

/-! ### Claim theorems -/

/-- C4: `revise(x, y)` is a no-op returning `False` when `x` and `y` have no
overlap; otherwise it keeps in `x`'s domain exactly the words with an
overlap-compatible word in `y`'s domain, leaves every other domain untouched,
and returns `True` exactly when `x`'s domain changed. -/
theorem revise_semantics (c : Crossword V) (d : V → List Word) (x y : V) :
    (c.overlaps x y = none → revise c d x y = (false, d)) ∧
    (∀ z, z ≠ x → (revise c d x y).2 z = d z) ∧
    (∀ i j, c.overlaps x y = some (i, j) →
      (revise c d x y).2 x =
        (d x).filter (fun w => (d y).any (fun u => charAt w i == charAt u j)) ∧
      ∀ w ∈ d x, (w ∈ (revise c d x y).2 x ↔ ∃ u ∈ d y, charAt w i = charAt u j)) ∧
    ((revise c d x y).1 = true ↔ (revise c d x y).2 x ≠ d x) := by
  refine ⟨fun h => revise_of_none h, fun z hz => revise_snd_ne d x y hz, ?_, ?_⟩
  · intro i j ho
    refine ⟨revise_snd_x ho, ?_⟩
    intro w hw
    rw [revise_snd_x ho]
    constructor
    · intro hm
      obtain ⟨_, hany⟩ := List.mem_filter.mp hm
      obtain ⟨u, hu, hbe⟩ := List.any_eq_true.mp hany
      exact ⟨u, hu, by simpa using hbe⟩
    · intro hex
      obtain ⟨u, hu, he⟩ := hex
      refine List.mem_filter.mpr ⟨hw, List.any_eq_true.mpr ⟨u, hu, ?_⟩⟩
      simpa using he
  · constructor
    · intro ht
      obtain ⟨i, j, ho⟩ := revise_true_overlap ht
      intro heq
      have hlt := revise_true_length ht
      rw [heq] at hlt
      omega
    · intro hne
      by_contra ht
      have hf : (revise c d x y).1 = false := by
        cases hb : (revise c d x y).1
        · rfl
        · exact absurd hb ht
      apply hne
      rw [revise_fst_false_eq hf]

/-- C4 witness: the characterization at the concrete crossing puzzle. -/
theorem revise_semantics_witness :
    (revise cwCross (initialDomains cwCross) 0 1).2 0 =
      ((initialDomains cwCross) 0).filter
        (fun w => ((initialDomains cwCross) 1).any (fun u => charAt w 1 == charAt u 1)) ∧
    ((revise cwCross (initialDomains cwCross) 0 1).1 = true ↔
      (revise cwCross (initialDomains cwCross) 0 1).2 0 ≠ (initialDomains cwCross) 0) :=
  ⟨((revise_semantics cwCross (initialDomains cwCross) 0 1).2.2.1 1 1 rfl).1,
   (revise_semantics cwCross (initialDomains cwCross) 0 1).2.2.2⟩

/-- C5: node-consistency enforcement leaves only words of exactly the slot's
length, and this property is preserved by revise, by the AC-3 loop, and by the
backtracking search, which only remove or restore words. -/
theorem node_consistency_invariant (c : Crossword V) (d d' : V → List Word)
    (x y : V) (fuel : Nat) (q : List (V × V)) (a : Assignment V)
    (h : lenOK c d') :
    lenOK c (enforceNodeConsistency c d) ∧
    lenOK c ((revise c d' x y).2) ∧
    lenOK c ((ac3F c fuel q d').2) ∧
    lenOK c ((backtrackF c fuel d' a).2) := by
  refine ⟨?_, lenOK_mono h (fun v => revise_sub d' x y v),
    lenOK_mono h (fun v => ac3F_sub c fuel q d' v),
    lenOK_mono h (fun v => backtrackF_sub c fuel d' a v)⟩
  intro v hv w hw
  unfold enforceNodeConsistency at hw
  rw [if_pos hv] at hw
  have hbeq := (List.mem_filter.mp hw).2
  simpa using hbeq


/-- C5 witness: the invariant at the concrete crossing puzzle. -/
theorem node_consistency_invariant_witness :
    lenOK cwCross (enforceNodeConsistency cwCross (initialDomains cwCross)) ∧
    lenOK cwCross ((revise cwCross
      (enforceNodeConsistency cwCross (initialDomains cwCross)) 0 1).2) ∧
    lenOK cwCross ((ac3F cwCross 3 []
      (enforceNodeConsistency cwCross (initialDomains cwCross))).2) ∧
    lenOK cwCross ((backtrackF cwCross 3
      (enforceNodeConsistency cwCross (initialDomains cwCross)) []).2) :=
  node_consistency_invariant cwCross (initialDomains cwCross)
    (enforceNodeConsistency cwCross (initialDomains cwCross)) 0 1 3 [] [] (by decide)

/-- C6: when the default-seeded `ac3` returns `True`, every word left in any
slot's domain has, for every overlap constraint, a compatible word in the
neighboring slot's domain. -/
theorem ac3_soundness (c : Crossword V) (d : V → List Word)
    (h : (ac3 c d).1 = true) :
    ∀ x y i j, c.overlaps x y = some (i, j) →
      ∀ w ∈ (ac3 c d).2 x, ∃ u ∈ (ac3 c d).2 y, charAt w i = charAt u j :=
  fun x y i j ho => ac3_sound c d h x y i j ho

/-- C6 witness: arc consistency of the propagated domains of the concrete
crossing puzzle. -/
theorem ac3_soundness_witness :
    arcConsAt ((ac3 cwCross (enforceNodeConsistency cwCross (initialDomains cwCross))).2)
      0 1 1 1 :=
  ac3_soundness cwCross (enforceNodeConsistency cwCross (initialDomains cwCross))
    (by decide) 0 1 1 1 rfl

/-- C7: no operation of the solve ever adds a word to a domain: enforcement,
revise and AC-3 shrink domains pointwise, the backtracking search returns
domains below its entry domains, and a failed search restores them exactly. -/
theorem domain_monotonicity (c : Crossword V) (d : V → List Word) (x y : V)
    (fuel : Nat) (q : List (V × V)) (a : Assignment V) :
    (∀ v, subD (enforceNodeConsistency c d v) (d v)) ∧
    (∀ v, subD ((revise c d x y).2 v) (d v)) ∧
    (∀ v, subD ((ac3F c fuel q d).2 v) (d v)) ∧
    (∀ v, subD ((backtrackF c fuel d a).2 v) (d v)) ∧
    ((backtrackF c fuel d a).1 = none → (backtrackF c fuel d a).2 = d) := by
  refine ⟨?_, fun v => revise_sub d x y v, fun v => ac3F_sub c fuel q d v,
    fun v => backtrackF_sub c fuel d a v, fun h => backtrackF_none c fuel d a h⟩
  intro v w hw
  unfold enforceNodeConsistency at hw
  by_cases hv : v ∈ c.vars
  · rw [if_pos hv] at hw
    exact (List.mem_filter.mp hw).1
  · rw [if_neg hv] at hw
    exact hw

/-- C7 witness: the exact-restore conjunct discharged on a failing search. -/
theorem domain_monotonicity_witness :
    (backtrackF cwLonely 2 (fun _ => []) []).2 = (fun _ => []) :=
  (domain_monotonicity cwLonely (fun _ => []) 0 0 2 [] []).2.2.2.2 (by decide)

/-- C8: re-running the default-seeded `ac3` on the domains it produced after a
successful run returns `True` and changes nothing. -/
theorem ac3_idempotent (c : Crossword V) (d : V → List Word)
    (h : (ac3 c d).1 = true) :
    ac3 c ((ac3 c d).2) = (true, (ac3 c d).2) := by
  apply ac3_drain_eq
  intro x y i j ho
  exact ac3_sound c d h x y i j ho

/-- C8 witness: idempotence at the concrete crossing puzzle. -/
theorem ac3_idempotent_witness :
    ac3 cwCross ((ac3 cwCross (enforceNodeConsistency cwCross (initialDomains cwCross))).2) =
      (true, (ac3 cwCross (enforceNodeConsistency cwCross (initialDomains cwCross))).2) :=
  ac3_idempotent cwCross (enforceNodeConsistency cwCross (initialDomains cwCross))
    (by decide)

/-- C10: `backtrack` never writes a tentative assignment into the domain
store: if the initial `ac3` returned `True`, every `ac3()` call inside the
search returns `True` without changing any domain, and the search leaves the
domains exactly as the initial propagation produced them. -/
theorem backtrack_preserves_domains (c : Crossword V) (d0 : V → List Word)
    (fuel : Nat) (a : Assignment V) (h : (ac3 c d0).1 = true) :
    ac3 c ((ac3 c d0).2) = (true, (ac3 c d0).2) ∧
    (backtrackF c fuel ((ac3 c d0).2) a).2 = (ac3 c d0).2 := by
  have hdrain : ac3 c ((ac3 c d0).2) = (true, (ac3 c d0).2) := by
    apply ac3_drain_eq
    intro x y i j ho
    exact ac3_sound c d0 h x y i j ho
  exact ⟨hdrain, backtrackF_dkeep c _ hdrain fuel a⟩

/-- C10 witness: domain preservation through the search on the concrete
crossing puzzle. -/
theorem backtrack_preserves_domains_witness :
    ac3 cwCross ((ac3 cwCross (enforceNodeConsistency cwCross (initialDomains cwCross))).2) =
      (true, (ac3 cwCross (enforceNodeConsistency cwCross (initialDomains cwCross))).2) ∧
    (backtrackF cwCross 3
        ((ac3 cwCross (enforceNodeConsistency cwCross (initialDomains cwCross))).2) []).2 =
      (ac3 cwCross (enforceNodeConsistency cwCross (initialDomains cwCross))).2 :=
  backtrack_preserves_domains cwCross
    (enforceNodeConsistency cwCross (initialDomains cwCross)) 3 [] (by decide)

/-- C3 counterexample: on a slot with no crossings whose domain is already
empty, the default-seeded `ac3` drains its (empty) queue and returns `True`
even though that slot's domain is empty — refuting the claim that a `True`
return guarantees non-empty domains for every initial domain state. -/
theorem ac3_true_with_empty_domain_cex :
    (ac3 cwLonely (fun _ => [])).1 = true ∧
    (ac3 cwLonely (fun _ => [])).2 0 = [] := by
  decide

/-- C3 (amended): whenever every domain is non-empty at entry and the AC-3
loop (under any fuel and any queue seeding, hence in particular the
default-seeded `ac3`) returns `True`, every domain is still non-empty: a
revision that empties a domain makes the loop return `False` at once. -/
theorem ac3_true_nonempty_amended (c : Crossword V) (fuel : Nat)
    (q : List (V × V)) (d : V → List Word) (h : ∀ v : V, d v ≠ []) :
    ((ac3F c fuel q d).1 = true → ∀ v : V, (ac3F c fuel q d).2 v ≠ []) ∧
    ((ac3 c d).1 = true → ∀ v : V, (ac3 c d).2 v ≠ []) :=
  ⟨fun ht => ac3F_true_nonempty c fuel q d h ht,
   fun ht => ac3F_true_nonempty c _ _ d h ht⟩

/-- C3 witness: the amended statement at the concrete crossing puzzle, whose
initial domains are non-empty. -/
theorem ac3_true_nonempty_amended_witness :
    ((ac3F cwCross 1 [] (initialDomains cwCross)).1 = true →
      ∀ v : Fin 2, (ac3F cwCross 1 [] (initialDomains cwCross)).2 v ≠ []) ∧
    ((ac3 cwCross (initialDomains cwCross)).1 = true →
      ∀ v : Fin 2, (ac3 cwCross (initialDomains cwCross)).2 v ≠ []) :=
  ac3_true_nonempty_amended cwCross 1 [] (initialDomains cwCross) (by decide)

theorem backtrack_none_of_empty_dom (c : Crossword V) (d : V → List Word) (v : V)
    (hv : v ∈ c.vars) (hdv : d v = []) (fuel : Nat) :
    (backtrackF c (fuel + 1) d []).1 = none := by
  rw [backtrackF_succ]
  have hvs : c.vars.length ≠ 0 := by
    intro h0
    rw [List.length_eq_zero] at h0
    rw [h0] at hv
    cases hv
  have hnc : ¬(assignmentComplete c ([] : Assignment V) = true) := by
    simp only [assignmentComplete, List.length_nil, beq_iff_eq]
    omega
  rw [if_neg hnc]
  have hlen : ([] : Assignment V).length ≠ c.vars.length := by
    simp only [List.length_nil]
    omega
  obtain ⟨var, hs⟩ := selectUnassigned_isSome (by simp) (by simp) hlen
  rw [hs]
  have hvard : d var = [] := by
    unfold selectUnassigned at hs
    cases hf : c.vars.filter (fun u => !(hasKey ([] : Assignment V) u)) with
    | nil => rw [hf] at hs; cases hs
    | cons u rest =>
      rw [hf] at hs
      injection hs with hs2
      have hvf : v ∈ c.vars.filter (fun u => !(hasKey ([] : Assignment V) u)) :=
        List.mem_filter.mpr ⟨hv, rfl⟩
      rw [hf] at hvf
      have hle := minBy_size_le c d rest u v hvf
      rw [hs2, hdv] at hle
      simp only [List.length_nil, Nat.le_zero, List.length_eq_zero] at hle
      exact hle
  have hodv : orderDomainValues c d [] var = [] := by
    unfold orderDomainValues
    rw [hvard]
    rfl
  show (tryVals c (fun d' a' => backtrackF c fuel d' a') d [] var
    (orderDomainValues c d [] var)).1 = none
  rw [hodv]
  rfl

/-- C9: when the vocabulary holds no word of some slot's length, `solve`
returns the no-solution signal `None`: that slot's domain empties at node
consistency, the MRV selection then picks a slot with an empty domain, and the
candidate loop is empty. -/
theorem unsolvable_on_malformed_vocab (c : Crossword V) (v : V) (hv : v ∈ c.vars)
    (hw : ∀ w ∈ c.words, (w : Word).length ≠ c.length v) : solve c = none := by
  have hd1 : enforceNodeConsistency c (initialDomains c) v = [] := by
    unfold enforceNodeConsistency initialDomains
    rw [if_pos hv]
    apply List.filter_eq_nil_iff.mpr
    intro w hwm
    intro hbeq
    exact hw w hwm (by simpa using hbeq)
  have hd2 : (ac3 c (enforceNodeConsistency c (initialDomains c))).2 v = [] := by
    have hsub := ac3_sub c (enforceNodeConsistency c (initialDomains c)) v
    rw [hd1] at hsub
    cases hval : (ac3 c (enforceNodeConsistency c (initialDomains c))).2 v with
    | nil => rfl
    | cons w ws =>
      exfalso
      have hmem := hsub w (by rw [hval]; exact List.mem_cons_self _ _)
      cases hmem
  show (backtrackF c (c.vars.length + 1)
      ((ac3 c (enforceNodeConsistency c (initialDomains c))).2) []).1 = none
  exact backtrack_none_of_empty_dom c _ v hv hd2 c.vars.length

/-- C9 witness: a slot of length 3 with a vocabulary of one two-letter word. -/
theorem unsolvable_on_malformed_vocab_witness : solve cwBad = none :=
  unsolvable_on_malformed_vocab cwBad 0 (by decide) (by decide)

/-- C1: every assignment `solve` returns assigns every slot a word, all words
pairwise distinct, of the slots' exact lengths, and agreeing at every
overlap. -/
theorem backtracking_soundness (c : Crossword V) (r : Assignment V)
    (h : solve c = some r) : satisfies c r := by
  have h' : (backtrackF c (c.vars.length + 1)
      ((ac3 c (enforceNodeConsistency c (initialDomains c))).2) []).1 = some r := h
  have hk : goodKeys c ([] : Assignment V) := ⟨List.nodup_nil, by simp⟩
  obtain ⟨hkr, hconsr, hlenr⟩ := backtrackF_sound c _ _ [] hk rfl r h'
  exact sat_of hkr hconsr hlenr

/-- C1 witness: the assignment found for the concrete crossing puzzle. -/
theorem backtracking_soundness_witness :
    satisfies cwCross [(0, ['c','a','t']), (1, ['c','a','r'])] :=
  backtracking_soundness cwCross [(0, ['c','a','t']), (1, ['c','a','r'])] (by decide)

/-- C2: whenever some constraint-satisfying complete assignment over the
vocabulary exists, `solve` returns an assignment (never a false
unsolvable), and the returned assignment satisfies all the constraints. -/
theorem backtracking_completeness (c : Crossword V) (S : V → Word)
    (hS : isSolution c S) : ∃ r, solve c = some r ∧ satisfies c r := by
  have hd1 : ∀ v ∈ c.vars, S v ∈ enforceNodeConsistency c (initialDomains c) v := by
    intro v hv
    unfold enforceNodeConsistency initialDomains
    rw [if_pos hv]
    refine List.mem_filter.mpr ⟨hS.1 v hv, ?_⟩
    simp [hS.2.1 v hv]
  have hd2 : ∀ v ∈ c.vars,
      S v ∈ (ac3 c (enforceNodeConsistency c (initialDomains c))).2 v :=
    (ac3_solution c hS _ hd1).2
  have hk : goodKeys c ([] : Assignment V) := ⟨List.nodup_nil, by simp⟩
  obtain ⟨r, hr⟩ := backtrackF_complete c hS (c.vars.length + 1) [] _ hk
    (by simp) hd2 (by simp)
  refine ⟨r, hr, ?_⟩
  obtain ⟨hkr, hconsr, hlenr⟩ := backtrackF_sound c _ _ [] hk rfl r hr
  exact sat_of hkr hconsr hlenr

/-- C2 witness: the crossing puzzle admits the solution cat / car, so `solve`
finds an assignment. -/
theorem backtracking_completeness_witness :
    ∃ r, solve cwCross = some r ∧ satisfies cwCross r :=
  backtracking_completeness cwCross
    (fun v => if v = 0 then ['c','a','t'] else ['c','a','r'])
    (by
      refine ⟨by decide, by decide, by decide, ?_⟩
      intro x y i j h
      fin_cases x <;> fin_cases y <;>
        first
        | exact Option.noConfusion h
        | (injection h with h2; injection h2 with hi hj; subst hi; subst hj; decide))
